import Mathlib

/-!
Verification of the yakateka helper registry, capability cache, weighted
fallback executor and pipeline resolver.

The Go source is shallowly embedded as follows:

* Go `map` values are modelled as association lists (`List (key × value)`)
  looked up with `List.lookup`; iteration order of a map is modelled by the
  order of the list, and statements that must hold "regardless of map
  iteration order" quantify over permutations of that list.
* Go `float64` weights and metrics are modelled as `ℚ`: the code only ever
  compares them (`!=`, `>`), never computes with them, so any linearly
  ordered field is a faithful model of the non-NaN floats the config parser
  produces.
* `sort.Slice` with a strict less-than comparator whose induced equivalence
  is equality (which is the case for `CacheEntry`: entries agree on weight
  and helper exactly when they are equal) produces the unique list that is
  pairwise related by the complementary non-strict order; we model it with
  `List.insertionSort` over that non-strict order.
* external processes (helper scripts, wrapped converter binaries) are
  modelled by oracles: a `String → Bool` / `String → Option String` success
  function for helper execution, a `Format → Format → Bool` edge predicate
  for `Factory.GetConverter`, and a `Nat → Bool` per-hop success oracle for
  pipeline execution.
-/

namespace Yakateka

/-- Document formats (`internal.DocumentFormat`) are strings such as
`"pdf"`, `"ps"`, `"html"` (src/internal/types.go). -/
abbrev Format := String

/-- Conversion modes (`helper.ConversionMode`): the three mode constants
`ModeNormal = "normal"`, `ModeFast = "fast"`, `ModeQuality = "quality"`.
These are the only mode keys the code ever reads or writes. -/
inductive ConversionMode where
  | normal
  | fast
  | quality
deriving DecidableEq, Repr

/-- The yaml key string of a mode (`string(modeName)` in Go). -/
def ConversionMode.key : ConversionMode → String
  | .normal => "normal"
  | .fast => "fast"
  | .quality => "quality"

/-- `helper.ModeMetrics`: speed/quality metrics of one conversion mode. -/
structure ModeMetrics where
  speed : ℚ
  quality : ℚ
deriving DecidableEq, Repr

/-- `ModeMetrics.IsSupported`: both metrics strictly positive. -/
def ModeMetrics.isSupported (m : ModeMetrics) : Bool :=
  decide (0 < m.speed) && decide (0 < m.quality)

/-- `helper.ModesStruct`: the three mode entries of one `(from,to)` pair. -/
structure ModesStruct where
  normal : ModeMetrics
  fast : ModeMetrics
  quality : ModeMetrics
deriving DecidableEq, Repr

/-- The metric selected by `GenerateCache`'s `switch modeName` over a
`ModesStruct`. -/
def ModesStruct.metricsFor (ms : ModesStruct) : ConversionMode → ModeMetrics
  | .normal => ms.normal
  | .fast => ms.fast
  | .quality => ms.quality

/-- `helper.HelperInfo`: `capabilities` maps fromFormat → toFormat →
`ModesStruct` (two nested Go maps, modelled as association lists). -/
structure HelperInfo where
  name : String
  capabilities : List (Format × List (Format × ModesStruct))
deriving DecidableEq, Repr

/-- `helper.HelperConfig`. -/
structure HelperConfig where
  path : String
  weight : ℚ
  available : Bool
deriving DecidableEq, Repr

/-- `helper.HelperEntry`. -/
structure HelperEntry where
  config : HelperConfig
  info : Option HelperInfo
deriving DecidableEq, Repr

/-- `helper.Registry`: the map path → entry, as an association list whose
order models the (arbitrary) Go map iteration order. -/
abbrev Registry := List (String × HelperEntry)

/-- `helper.CacheEntry`: one candidate in a cache bucket. -/
structure CacheEntry where
  helper : String
  weight : ℚ
deriving DecidableEq, Repr

/-- `helper.HelperCache`: `Conversions` maps fromFormat → toFormat → mode →
bucket (three nested Go maps, modelled as nested association lists). -/
abbrev HelperCache := List (Format × List (Format × List (ConversionMode × List CacheEntry)))

instance decEqModeBuckets : DecidableEq (List (ConversionMode × List CacheEntry)) :=
  inferInstance

instance decEqToBuckets : DecidableEq (List (Format × List (ConversionMode × List CacheEntry))) :=
  inferInstance

instance decEqHelperCache : DecidableEq HelperCache :=
  inferInstance

/-- Lookup of one bucket, `cache.Conversions[from][to][mode]`; `none` models
a missing key at any level. -/
def cacheFind (c : HelperCache) (f t : Format) (m : ConversionMode) :
    Option (List CacheEntry) :=
  match c.lookup f with
  | none => none
  | some tos =>
    match tos.lookup t with
    | none => none
    | some modes => modes.lookup m

/-- The bucket as a list, with a missing key read as the empty bucket. -/
def bucket (c : HelperCache) (f t : Format) (m : ConversionMode) : List CacheEntry :=
  (cacheFind c f t m).getD []

/-! ### GenerateCache (src/internal/helper/registry.go, lines 67–139) -/

/-- The candidate `conversions[key]` contribution of a single registry entry
for key `(f, t, m)`: skipped when the helper is unavailable or has no info
(line 83), otherwise present iff the mode's metrics are supported
(line 102), carrying the map key as `Helper` and the config weight. -/
def entryFor (f t : Format) (m : ConversionMode) (h : String × HelperEntry) :
    Option CacheEntry :=
  if h.2.config.available then
    match h.2.info with
    | some info =>
      match info.capabilities.lookup f with
      | some tos =>
        match tos.lookup t with
        | some ms =>
          if (ms.metricsFor m).isSupported then some ⟨h.1, h.2.config.weight⟩ else none
        | none => none
      | none => none
    | none => none
  else none

/-- Lexicographic order on strings, as Go's `<` compares byte sequences:
modelled on the character lists (the format names and helper paths the code
compares are ASCII, where the two coincide). -/
def strLE (a b : String) : Prop := a.data ≤ b.data

instance : DecidableRel strLE := fun a b => by
  unfold strLE; infer_instance

theorem strLE_total (a b : String) : strLE a b ∨ strLE b a := le_total a.data b.data

theorem strLE_trans {a b c : String} (h1 : strLE a b) (h2 : strLE b c) : strLE a c :=
  le_trans h1 h2

theorem strLE_antisymm {a b : String} (h1 : strLE a b) (h2 : strLE b a) : a = b := by
  have : a.data = b.data := le_antisymm h1 h2
  cases a; cases b; exact congrArg String.mk this

instance : IsTotal String strLE := ⟨strLE_total⟩

instance : IsTrans String strLE := ⟨fun _ _ _ => strLE_trans⟩

instance : IsAntisymm String strLE := ⟨fun _ _ => strLE_antisymm⟩

/-- The comparator of `GenerateCache`'s `sort.Slice` call (lines 121–126) is
the strict order "weight descending, then helper name ascending"; a list is
sorted by it exactly when it is pairwise related by this complementary
non-strict order. -/
def cacheLE (a b : CacheEntry) : Prop :=
  b.weight < a.weight ∨ (a.weight = b.weight ∧ strLE a.helper b.helper)

instance : DecidableRel cacheLE := fun a b => by
  unfold cacheLE; infer_instance

instance : IsTotal CacheEntry cacheLE where
  total a b := by
    rcases lt_trichotomy a.weight b.weight with h | h | h
    · exact Or.inr (Or.inl h)
    · rcases strLE_total a.helper b.helper with h2 | h2
      · exact Or.inl (Or.inr ⟨h, h2⟩)
      · exact Or.inr (Or.inr ⟨h.symm, h2⟩)
    · exact Or.inl (Or.inl h)

instance : IsTrans CacheEntry cacheLE where
  trans a b c hab hbc := by
    rcases hab with h1 | ⟨h1, h1'⟩ <;> rcases hbc with h2 | ⟨h2, h2'⟩
    · exact Or.inl (h2.trans h1)
    · exact Or.inl (h2 ▸ h1)
    · exact Or.inl (h1 ▸ h2)
    · exact Or.inr ⟨h1.trans h2, strLE_trans h1' h2'⟩

instance : IsAntisymm CacheEntry cacheLE where
  antisymm a b hab hba := by
    rcases hab with h1 | ⟨h1, h1'⟩ <;> rcases hba with h2 | ⟨h2, h2'⟩
    · exact absurd (h1.trans h2) (lt_irrefl _)
    · exact absurd h1 (h2 ▸ lt_irrefl _)
    · exact absurd h2 (h1 ▸ lt_irrefl _)
    · cases a; cases b
      simp only [CacheEntry.mk.injEq]
      exact ⟨strLE_antisymm h1' h2', h1⟩

/-- One sorted bucket of the generated cache: the entries collected from the
registry in iteration order (lines 82–117), then sorted by the comparator of
lines 121–126. -/
def genBucket (r : Registry) (f t : Format) (m : ConversionMode) : List CacheEntry :=
  List.insertionSort cacheLE (r.filterMap (entryFor f t m))

/-- The from-format keys a registry entry can contribute (the outer
`range entry.Info.Capabilities` loop of line 88). -/
def fromsOf (h : String × HelperEntry) : List Format :=
  if h.2.config.available then
    match h.2.info with
    | some info => info.capabilities.map (·.1)
    | none => []
  else []

/-- The to-format keys a registry entry can contribute under `f`
(the `range toFormats` loop of line 89). -/
def tosOf (h : String × HelperEntry) (f : Format) : List Format :=
  if h.2.config.available then
    match h.2.info with
    | some info =>
      match info.capabilities.lookup f with
      | some tos => tos.map (·.1)
      | none => []
    | none => []
  else []

/-- Ascending sort of a key list after removing duplicates; this models the
key set of a Go map as serialized by `yaml.Marshal`, which emits map keys in
sorted order. -/
def sortDedup (l : List String) : List String :=
  List.insertionSort strLE l.dedup

/-- Mode keys in ascending order of their yaml key strings
(`"fast" < "normal" < "quality"`). -/
def allModes : List ConversionMode := [.fast, .normal, .quality]

/-- The mode → bucket map of the generated cache under `(f, t)`: exactly the
modes whose collected candidate list is non-empty (line 135 only assigns
keys that received appends), in serialized (sorted yaml key) order. -/
def genModes (r : Registry) (f t : Format) : List (ConversionMode × List CacheEntry) :=
  (allModes.filter (fun m => !(genBucket r f t m).isEmpty)).map
    (fun m => (m, genBucket r f t m))

/-- The to-format → modes map of the generated cache under `f`, in
serialized order; a to-key is present iff it holds at least one bucket
(lines 132–135). -/
def genTos (r : Registry) (f : Format) : List (Format × List (ConversionMode × List CacheEntry)) :=
  ((sortDedup (r.flatMap (tosOf · f))).filter
      (fun t => !(genModes r f t).isEmpty)).map
    (fun t => (t, genModes r f t))

/-- `Registry.GenerateCache` followed by `SaveCache`'s `yaml.Marshal`: the
nested map fromFormat → toFormat → mode → sorted bucket, with every map
level listed in sorted key order (as the yaml encoder emits it) and a key
present iff it holds data (lines 129–135 create keys only when an entry is
appended). Byte-identical serialized caches correspond exactly to equal
values of this structure. -/
def generateCache (r : Registry) : HelperCache :=
  ((sortDedup (r.flatMap fromsOf)).filter
      (fun f => !(genTos r f).isEmpty)).map
    (fun f => (f, genTos r f))

/-! ### FindHelpers and failure exclusion (registry.go, lines 171–227) -/

/-- `HelperCache.FindHelpers` (lines 173–196): return the requested bucket
when present and non-empty; otherwise, for a non-normal mode, fall back to
the `(from,to,normal)` bucket (returned even when empty, line 185); else
nil. A nil result and a present-but-empty result are both modelled as `[]`:
the caller (`Convert`, line 79) only tests the length. -/
def findHelpers (c : HelperCache) (f t : Format) (m : ConversionMode) : List CacheEntry :=
  let req := bucket c f t m
  if !req.isEmpty then req
  else if m ≠ .normal then bucket c f t .normal
  else []

/-- Removal of one helper from a bucket (the `filtered` loop of
registry.go, lines 213–218). -/
def filterBucket (p : String) (b : List CacheEntry) : List CacheEntry :=
  b.filter (fun e => e.helper ≠ p)

/-- Removal of one helper from every mode bucket of one `(from,to)` pair
(the `for mode, helpers := range` loop of registry.go, line 212). -/
def markModes (p : String) (ms : List (ConversionMode × List CacheEntry)) :
    List (ConversionMode × List CacheEntry) :=
  ms.map (fun mb => (mb.1, filterBucket p mb.2))

/-- Update of the to-format map at key `t` only. -/
def markTos (t : Format) (p : String)
    (tos : List (Format × List (ConversionMode × List CacheEntry))) :
    List (Format × List (ConversionMode × List CacheEntry)) :=
  tos.map (fun tt => if tt.1 = t then (tt.1, markModes p tt.2) else tt)

/-- `HelperCache.MarkHelperFailed` (lines 200–227): remove `helperPath` from
every mode bucket of the `(from,to)` pair, leaving every other pair
untouched. The Go nil-map guards (lines 204–209) are the no-change cases of
the map below. -/
def markHelperFailed (c : HelperCache) (f t : Format) (p : String) : HelperCache :=
  c.map (fun ft => if ft.1 = f then (ft.1, markTos t p ft.2) else ft)

/-- Removal of one helper from every mode bucket of every to-format. -/
def markAllTos (p : String)
    (tos : List (Format × List (ConversionMode × List CacheEntry))) :
    List (Format × List (ConversionMode × List CacheEntry)) :=
  tos.map (fun tt => (tt.1, markModes p tt.2))

/-- Modelled from the spec: `HelperCache.MarkHelperGloballyFailed`, called
by `LoadAndPing` (src/internal/helper/loader.go, line 77) but defined in
repository code outside src/. Per the spec, a converter that fails `ping`
"is removed from *all* buckets globally", so the helper is filtered out of
every mode bucket of every format pair. -/
def markHelperGloballyFailed (c : HelperCache) (p : String) : HelperCache :=
  c.map (fun ft => (ft.1, markAllTos p ft.2))

/-- The ping-failure exclusion loop of `LoadAndPing` (loader.go, lines
63–79): each helper of the cache whose ping failed is marked globally
failed. The list `failed` models the iteration over the ping-failed subset
of the cache's unique helper paths. -/
def applyPingExclusions (c : HelperCache) (failed : List String) : HelperCache :=
  failed.foldl (fun acc p => markHelperGloballyFailed acc p) c

/-! ### HelperConverter.Convert (src/internal/helper/converter.go) -/

/-- The error classes of src/internal/types.go wrapped by `Convert` via
`fmt.Errorf("%w: ...")`. -/
inductive ErrKind where
  | invalidInput
  | unsupportedConversion
  | conversionFailed
deriving DecidableEq, Repr

/-- Result of `HelperConverter.Convert`: success with the helper that
converted, or a wrapped error with its full message string. -/
inductive ConvResult where
  | ok (helper : String)
  | err (kind : ErrKind) (msg : String)
deriving DecidableEq, Repr

/-- The mode switch of `Convert` on `opts.Quality` (lines 69–75). -/
def modeOfQuality (q : String) : ConversionMode :=
  if q = "fast" then .fast
  else if q = "high" ∨ q = "quality" then .quality
  else .normal

/-- The candidate loop of `Convert` (lines 96–149) over the captured
`helpers` slice: `execErr h = none` models a successful helper run,
`execErr h = some msg` a failure with underlying error `msg`. On failure the
helper is removed from the live cache for this pair (line 136) and `lastErr`
is updated; after exhaustion the wrapped `ErrConversionFailed` message of
line 148 reports the total candidate count and the last error. -/
def convertLoop (execErr : String → Option String) (f t : Format) (total : Nat)
    (c : HelperCache) :
    List CacheEntry → Option String → HelperCache × ConvResult
  | [], lastErr =>
    (c, .err .conversionFailed
      ("conversion failed: all " ++ toString total ++ " helpers failed, last error: "
        ++ lastErr.getD ""))
  | e :: rest, _lastErr =>
    match execErr e.helper with
    | none => (c, .ok e.helper)
    | some msg =>
      convertLoop execErr f t total (markHelperFailed c f t e.helper) rest (some msg)

/-- `HelperConverter.Convert` (lines 61–150): input-existence check, mode
selection, candidate lookup, then the fallback loop. `inputExists` models
the `os.Stat` check on the input path; `input` is carried only for the
`ErrInvalidInput` message. Returns the final live cache and the result. -/
def convert (execErr : String → Option String) (inputExists : Bool) (input : String)
    (c : HelperCache) (f t : Format) (quality : String) : HelperCache × ConvResult :=
  if !inputExists then
    (c, .err .invalidInput ("invalid input: " ++ input))
  else
    let mode := modeOfQuality quality
    let helpers := findHelpers c f t mode
    if helpers.isEmpty then
      (c, .err .unsupportedConversion
        ("unsupported conversion: no helpers support " ++ f ++ " → " ++ t))
    else
      convertLoop execErr f t helpers.length c helpers none

/-! ### Pipeline resolver (src/internal/converter/types.go)

`Factory.GetConverter` scans the registered converters for one supporting
the pair; for the resolver only the existence of such a converter matters,
so it is modelled by an edge predicate `can : Format → Format → Bool`. -/

/-- `converter.ConversionStep` (the `Converter` field is dropped: which
concrete converter serves an edge does not affect the resolved chain of
formats). -/
structure Step where
  fromFormat : Format
  toFormat : Format
deriving DecidableEq, Repr

/-- The BFS `node` type local to `tryMultiStepPipeline` (line 180). -/
structure Node where
  fmt : Format
  path : List Step
  dist : Nat
deriving DecidableEq, Repr

/-- `connects a p b` holds when `p` is a contiguous chain of steps leading
from format `a` to format `b`. -/
def connects (a : Format) : List Step → Format → Bool
  | [], b => a == b
  | s :: rest, b => (s.fromFormat == a) && connects s.toFormat rest b

/-- The inner candidate loop of `tryMultiStepPipeline` (lines 201–234):
expand `cur` over the remaining candidate formats, threading the `visited`
set; stops early with the completed path when the target is reached,
otherwise returns the newly enqueued nodes and the grown visited set. -/
def expandCandidates (can : Format → Format → Bool) (tgt : Format) (cur : Node) :
    List Format → List Format → Option (List Step) × List Node × List Format
  | [], visited => (none, [], visited)
  | c :: cs, visited =>
    if c ∈ visited then expandCandidates can tgt cur cs visited
    else if !can cur.fmt c then expandCandidates can tgt cur cs visited
    else if c = tgt then (some (cur.path ++ [⟨cur.fmt, c⟩]), [], visited)
    else
      let n : Node := ⟨c, cur.path ++ [⟨cur.fmt, c⟩], cur.dist + 1⟩
      let res := expandCandidates can tgt cur cs (visited ++ [c])
      (res.1, n :: res.2.1, res.2.2)

/-- Count of candidate formats not yet visited (the BFS termination
measure: every enqueued node permanently marks one of them visited). -/
def unvisited (cands visited : List Format) : Nat :=
  (cands.filter (fun c => !(decide (c ∈ visited)))).length

theorem length_filter_lt_of_witness {α : Type} {p q : α → Bool}
    (hmono : ∀ a, q a = true → p a = true) :
    ∀ {l : List α} {a : α}, a ∈ l → p a = true → q a = false →
      (l.filter q).length < (l.filter p).length := by
  intro l
  induction l with
  | nil => intro a ha; cases ha
  | cons x xs ih =>
    intro a ha hpa hqa
    rcases List.mem_cons.mp ha with rfl | ha'
    · rw [List.filter_cons, List.filter_cons, hpa, hqa]
      simp only [List.length_cons, if_false, Bool.false_eq_true]
      exact Nat.lt_succ_of_le
        (List.Sublist.length_le (List.monotone_filter_right xs (fun b hb => hmono b hb)))
    · rw [List.filter_cons, List.filter_cons]
      cases hqx : q x with
      | true =>
        rw [hmono x hqx]
        simpa using Nat.succ_lt_succ (ih ha' hpa hqa)
      | false =>
        cases hpx : p x with
        | true => exact Nat.lt_succ_of_lt (by simpa using ih ha' hpa hqa)
        | false => simpa using ih ha' hpa hqa

theorem expandCandidates_spec (can : Format → Format → Bool) (tgt : Format) (cur : Node) :
    ∀ (cs visited : List Format) {r : Option (List Step)} {ns : List Node}
      {v : List Format},
      expandCandidates can tgt cur cs visited = (r, ns, v) →
      v = visited ++ ns.map Node.fmt ∧
      (∀ n ∈ ns, n.fmt ∈ cs ∧ n.fmt ∉ visited ∧ n.fmt ≠ tgt ∧
        can cur.fmt n.fmt = true ∧
        n.path = cur.path ++ [⟨cur.fmt, n.fmt⟩] ∧ n.dist = cur.dist + 1) ∧
      (ns.map Node.fmt).Nodup ∧
      (∀ p, r = some p →
        p = cur.path ++ [⟨cur.fmt, tgt⟩] ∧ tgt ∉ visited ∧ can cur.fmt tgt = true) := by
  intro cs
  induction cs with
  | nil =>
    intro visited r ns v h
    simp only [expandCandidates] at h
    injection h with h1 h23
    injection h23 with h2 h3
    subst h1; subst h2; subst h3
    refine ⟨by simp, by simp, by simp, ?_⟩
    intro p hp; cases hp
  | cons c cs ih =>
    intro visited r ns v h
    simp only [expandCandidates] at h
    by_cases hvis : c ∈ visited
    · rw [if_pos hvis] at h
      obtain ⟨hv, hns, hnd, hr⟩ := ih visited h
      refine ⟨hv, ?_, hnd, hr⟩
      intro n hn
      obtain ⟨h1, h2, h3, h4, h5, h6⟩ := hns n hn
      exact ⟨List.mem_cons_of_mem _ h1, h2, h3, h4, h5, h6⟩
    · rw [if_neg hvis] at h
      by_cases hcan : can cur.fmt c
      · rw [hcan] at h
        simp only [Bool.not_true, Bool.false_eq_true, if_false] at h
        by_cases htgt : c = tgt
        · rw [if_pos htgt] at h
          injection h with h1 h23
          injection h23 with h2 h3
          subst h1; subst h2; subst h3
          refine ⟨by simp, by simp, by simp, ?_⟩
          intro p hp
          cases hp
          subst htgt
          exact ⟨rfl, hvis, hcan⟩
        · rw [if_neg htgt] at h
          injection h with h1 h23
          injection h23 with h2 h3
          obtain ⟨hv, hns, hnd, hr⟩ := ih (visited ++ [c]) rfl
          subst h1; subst h2; subst h3
          constructor
          · rw [hv]; simp
          constructor
          · intro n hn
            simp only [List.mem_cons] at hn
            rcases hn with rfl | hn
            · exact ⟨List.mem_cons_self _ _, hvis, htgt, hcan, rfl, rfl⟩
            · obtain ⟨h1, h2, h3, h4, h5, h6⟩ := hns n hn
              refine ⟨List.mem_cons_of_mem _ h1, ?_, h3, h4, h5, h6⟩
              intro hmem
              exact h2 (List.mem_append_left _ hmem)
          constructor
          · simp only [List.map_cons, List.nodup_cons]
            refine ⟨?_, hnd⟩
            intro hmem
            obtain ⟨n, hn, hfmt⟩ := List.mem_map.mp hmem
            obtain ⟨_, h2, _⟩ := hns n hn
            exact h2 (by rw [hfmt]; simp)
          · intro p hp
            obtain ⟨hp1, hp2, hp3⟩ := hr p hp
            exact ⟨hp1, fun hmem => hp2 (List.mem_append_left _ hmem), hp3⟩
      · rw [Bool.not_eq_true] at hcan
        rw [hcan] at h
        simp only [Bool.not_false, if_true] at h
        obtain ⟨hv, hns, hnd, hr⟩ := ih visited h
        refine ⟨hv, ?_, hnd, hr⟩
        intro n hn
        obtain ⟨h1, h2, h3, h4, h5, h6⟩ := hns n hn
        exact ⟨List.mem_cons_of_mem _ h1, h2, h3, h4, h5, h6⟩

theorem unvisited_append_le (cands : List Format) :
    ∀ (nw visited : List Format), nw.Nodup →
      (∀ x ∈ nw, x ∈ cands ∧ x ∉ visited) →
      unvisited cands (visited ++ nw) + nw.length ≤ unvisited cands visited := by
  intro nw
  induction nw with
  | nil => intro visited _ _; simp [Nat.le_refl]
  | cons x xs ih =>
    intro visited hnd hmem
    obtain ⟨hx, hxs⟩ := List.nodup_cons.mp hnd
    obtain ⟨hxc, hxv⟩ := hmem x (List.mem_cons_self _ _)
    have step : unvisited cands (visited ++ [x]) < unvisited cands visited := by
      apply length_filter_lt_of_witness
      · intro a ha
        simp only [Bool.not_eq_true', decide_eq_false_iff_not] at ha ⊢
        intro hmem'
        exact ha (List.mem_append_left _ hmem')
      · exact hxc
      · simp only [Bool.not_eq_true', decide_eq_false_iff_not]
        exact hxv
      · simp [List.mem_append]
    have tail := ih (visited ++ [x]) hxs (by
      intro y hy
      obtain ⟨hyc, hyv⟩ := hmem y (List.mem_cons_of_mem _ hy)
      refine ⟨hyc, ?_⟩
      simp only [List.mem_append, List.mem_singleton]
      rintro (h | rfl)
      · exact hyv h
      · exact hx hy)
    have : visited ++ x :: xs = (visited ++ [x]) ++ xs := by simp
    rw [this]
    simp only [List.length_cons]
    omega

/-- The BFS queue loop of `tryMultiStepPipeline` (lines 186–235): pop the
front node; skip it when its distance reached `maxSteps` (line 195);
otherwise expand it over the candidate list, returning a completed path
immediately or appending the new nodes to the queue. -/
def bfsLoop (can : Format → Format → Bool) (tgt : Format) (cands : List Format)
    (maxSteps : Nat) : List Node → List Format → Option (List Step)
  | [], _ => none
  | cur :: rest, visited =>
    if maxSteps ≤ cur.dist then bfsLoop can tgt cands maxSteps rest visited
    else
      match hexp : expandCandidates can tgt cur cands visited with
      | (some p, _, _) => some p
      | (none, ns, v) => bfsLoop can tgt cands maxSteps (rest ++ ns) v
  termination_by queue visited => unvisited cands visited + queue.length
  decreasing_by
  · simp only [List.length_cons]
    omega
  · obtain ⟨hv, hns, hnd, _⟩ := expandCandidates_spec can tgt cur cands visited hexp
    have key : unvisited cands v + ns.length ≤ unvisited cands visited := by
      rw [hv]
      have := unvisited_append_le cands (ns.map Node.fmt) visited hnd (by
        intro x hx
        obtain ⟨n, hn, rfl⟩ := List.mem_map.mp hx
        obtain ⟨h1, h2, _⟩ := hns n hn
        exact ⟨h1, h2⟩)
      simpa using this
    simp only [List.length_append, List.length_cons]
    omega

/-- `Factory.tryMultiStepPipeline` (lines 178–238): BFS from `f`, with the
candidate list `append([]{to}, intermediates...)` (line 200), the start node
`{format: from, path: nil, distance: 0}` and `from` pre-visited (lines
186–188). -/
def tryMultiStepPipeline (can : Format → Format → Bool) (f tgt : Format)
    (intermediates : List Format) (maxSteps : Nat) : Option (List Step) :=
  bfsLoop can tgt (tgt :: intermediates) maxSteps [⟨f, [], 0⟩] [f]

/-- The fixed preference-ordered intermediate formats of `buildPipeline`
(lines 116–120): `FormatPDF`, `FormatPS`, `FormatHTML`. (`FormatPS` is
declared with the other `internal.Format*` constants outside src/; its
token, like all of them, is the lowercase format name `"ps"` — see the spec
glossary and §8's `(djvu,ps)` example.) -/
def intermediateFormats : List Format := ["pdf", "ps", "html"]

/-- `Factory.try2StepPipeline` (lines 157–174): both hops must have a
converter. -/
def try2StepPipeline (can : Format → Format → Bool) (f tgt i : Format) :
    Option (List Step) :=
  if can f i && can i tgt then some [⟨f, i⟩, ⟨i, tgt⟩] else none

/-- The 2-step loop of `buildPipeline` (lines 123–134): first success over
the intermediates in preference order. -/
def first2Step (can : Format → Format → Bool) (f tgt : Format) :
    List Format → Option (List Step)
  | [] => none
  | i :: is =>
    match try2StepPipeline can f tgt i with
    | some p => some p
    | none => first2Step can f tgt is

/-- `Factory.buildPipeline` (lines 112–154): try a 2-step pipeline via each
preferred intermediate, then a multi-step BFS capped at 4 steps
(line 137). -/
def buildPipeline (can : Format → Format → Bool) (f tgt : Format) : Option (List Step) :=
  match first2Step can f tgt intermediateFormats with
  | some p => some p
  | none => tryMultiStepPipeline can f tgt intermediateFormats 4

/-! ### Pipeline executor (src/internal/converter/types.go, lines 240–305)

Files are identified by `FileId`: `user` paths given by the caller and
`temp` files returned by `os.CreateTemp`, which the OS guarantees to be
fresh (never colliding with an existing path); modelling the two as
distinct constructors captures exactly that guarantee. The `k`-th created
temp file of a run is `temp k`. The per-hop converter invocation is the
oracle `exec : Nat → Bool` (success of `step.Converter.Convert` at hop
index `k`). -/

inductive FileId where
  | user (path : String)
  | temp (k : Nat)
deriving DecidableEq, Repr

/-- Whether a file is one of the run's temporary artifacts. -/
def FileId.isTemp : FileId → Bool
  | .temp _ => true
  | .user _ => false

/-- Result of `executePipeline`: `stepFailed` carries the 1-based hop index
and the hop's formats, as in the error
`pipeline step %d failed (%s → %s)` (line 284). -/
inductive PipeResult where
  | ok
  | stepFailed (idx : Nat) (fromFormat toFormat : Format)
deriving DecidableEq, Repr

/-- The hop loop of `Factory.executePipeline` (lines 246–296) followed by
the success cleanup (lines 293–296). Arguments: remaining steps, 0-based
index `i` of the next hop, the current input file, the temp files created
so far, and the set of existing files. Returns the result, all temp files
created, and the final file set. A non-final hop creates a fresh temp file
(lines 254–260) before converting; a hop failure deletes every created temp
file (lines 281–283); after the last hop all temp files are deleted but the
final output is not. -/
def executePipeline (exec : Nat → Bool) (output : FileId) :
    List Step → Nat → FileId → List FileId → List FileId →
      PipeResult × List FileId × List FileId
  | [], _, _, temps, fs =>
    (.ok, temps, fs.filter (fun x => !temps.contains x))
  | [step], i, _cur, temps, fs =>
    if exec i then
      (.ok, temps, (output :: fs).filter (fun x => !temps.contains x))
    else
      (.stepFailed (i + 1) step.fromFormat step.toFormat, temps,
        fs.filter (fun x => !temps.contains x))
  | step :: r1 :: rs, i, _cur, temps, fs =>
    let tfile := FileId.temp i
    let temps' := temps ++ [tfile]
    let fs' := tfile :: fs
    if exec i then
      executePipeline exec output (r1 :: rs) (i + 1) tfile temps' fs'
    else
      (.stepFailed (i + 1) step.fromFormat step.toFormat, temps',
        fs'.filter (fun x => !temps'.contains x))

/-! ### Lookup lemmas for the nested cache maps -/

theorem lookup_map_value {κ α : Type} [BEq κ] [LawfulBEq κ] (F : α → α) (k : κ) :
    ∀ l : List (κ × α),
      (l.map (fun e => (e.1, F e.2))).lookup k = (l.lookup k).map F := by
  intro l
  induction l with
  | nil => rfl
  | cons x xs ih =>
    simp only [List.map_cons, List.lookup]
    cases hk : k == x.1 with
    | true => rfl
    | false => exact ih

theorem lookup_map_ite {κ α : Type} [BEq κ] [LawfulBEq κ] [DecidableEq κ]
    (F : α → α) (f k : κ) :
    ∀ l : List (κ × α),
      (l.map (fun e => if e.1 = f then (e.1, F e.2) else e)).lookup k =
        if k = f then (l.lookup k).map F else l.lookup k := by
  intro l
  induction l with
  | nil => cases h : decide (k = f) <;> simp [List.lookup]
  | cons x xs ih =>
    simp only [List.map_cons]
    by_cases hx : x.1 = f
    · rw [if_pos hx]
      simp only [List.lookup]
      cases hk : k == x.1 with
      | true =>
        have : k = f := by rw [← hx]; exact eq_of_beq hk
        rw [if_pos this]
        rfl
      | false => rw [ih]
    · rw [if_neg hx]
      simp only [List.lookup]
      cases hk : k == x.1 with
      | true =>
        have hkx : k = x.1 := eq_of_beq hk
        rw [if_neg (by rw [hkx]; exact hx)]
      | false => rw [ih]

/-- Effect of `MarkHelperFailed` on any lookup: the requested pair's buckets
are filtered, all other lookups are untouched. -/
theorem cacheFind_markHelperFailed (c : HelperCache) (f t p : String)
    (f' t' : Format) (m : ConversionMode) :
    cacheFind (markHelperFailed c f t p) f' t' m =
      if f' = f ∧ t' = t then
        (cacheFind c f' t' m).map (filterBucket p)
      else cacheFind c f' t' m := by
  unfold markHelperFailed cacheFind
  rw [lookup_map_ite (markTos t p) f f' c]
  by_cases hf : f' = f
  · rw [if_pos hf]
    cases htos : c.lookup f' with
    | none =>
      by_cases ht : t' = t
      · rw [if_pos ⟨hf, ht⟩]; rfl
      · rw [if_neg (fun hc => ht hc.2)]; rfl
    | some tos =>
      simp only [Option.map_some']
      unfold markTos
      rw [lookup_map_ite (markModes p) t t' tos]
      by_cases ht : t' = t
      · rw [if_pos ht, if_pos ⟨hf, ht⟩]
        cases hms : tos.lookup t' with
        | none => rfl
        | some ms =>
          simp only [Option.map_some']
          unfold markModes
          exact lookup_map_value (filterBucket p) m ms
      · rw [if_neg ht, if_neg (fun hc => ht hc.2)]
  · rw [if_neg hf, if_neg (fun hc => hf hc.1)]

/-- Effect of the spec-modelled global exclusion on any lookup: every bucket
is filtered. -/
theorem cacheFind_markHelperGloballyFailed (c : HelperCache) (p : String)
    (f t : Format) (m : ConversionMode) :
    cacheFind (markHelperGloballyFailed c p) f t m =
      (cacheFind c f t m).map (filterBucket p) := by
  unfold markHelperGloballyFailed cacheFind
  rw [lookup_map_value (markAllTos p) f c]
  cases htos : c.lookup f with
  | none => rfl
  | some tos =>
    simp only [Option.map_some']
    unfold markAllTos
    rw [lookup_map_value (markModes p) t tos]
    cases hms : tos.lookup t with
    | none => rfl
    | some ms =>
      simp only [Option.map_some']
      unfold markModes
      exact lookup_map_value (filterBucket p) m ms

theorem mem_bucket_markHelperGloballyFailed {c : HelperCache} {p : String}
    {f t : Format} {m : ConversionMode} {e : CacheEntry}
    (h : e ∈ bucket (markHelperGloballyFailed c p) f t m) :
    e ∈ bucket c f t m ∧ e.helper ≠ p := by
  unfold bucket at h ⊢
  rw [cacheFind_markHelperGloballyFailed] at h
  cases hfind : cacheFind c f t m with
  | none => rw [hfind] at h; cases h
  | some b =>
    rw [hfind] at h
    simp only [Option.map_some', Option.getD_some] at h
    unfold filterBucket at h
    have := List.mem_filter.mp h
    refine ⟨by simpa using this.1, ?_⟩
    have h2 := this.2
    simpa using h2

theorem mem_bucket_applyPingExclusions {failed : List String} :
    ∀ {c : HelperCache} {f t : Format} {m : ConversionMode} {e : CacheEntry},
      e ∈ bucket (applyPingExclusions c failed) f t m → e ∈ bucket c f t m := by
  induction failed with
  | nil => intro c f t m e h; exact h
  | cons q qs ih =>
    intro c f t m e h
    have h1 : e ∈ bucket (markHelperGloballyFailed c q) f t m := ih h
    exact (mem_bucket_markHelperGloballyFailed h1).1

/-- A sample cache used to instantiate the cache-level theorems. -/
def wCache : HelperCache :=
  [("md", [("pdf", [(.normal, [⟨"a", 1⟩, ⟨"b", 1⟩]), (.fast, [⟨"a", 1⟩])]),
           ("html", [(.normal, [⟨"a", 1⟩])])])]

/-- C2: when a candidate helper fails a conversion for a pair (from, to),
`MarkHelperFailed` removes it from every mode bucket of exactly that
(from, to) pair in the live cache, and every bucket of every other
(from', to') pair is left unchanged, so the same helper remains eligible
for all other format pairs. -/
theorem markHelperFailed_pair_isolated (c : HelperCache) (f t : Format) (p : String) :
    (∀ m, bucket (markHelperFailed c f t p) f t m = filterBucket p (bucket c f t m)) ∧
    (∀ m e, e ∈ bucket (markHelperFailed c f t p) f t m → e.helper ≠ p) ∧
    (∀ (f' t' : Format) (m : ConversionMode), ¬(f' = f ∧ t' = t) →
      cacheFind (markHelperFailed c f t p) f' t' m = cacheFind c f' t' m) := by
  have hpair : ∀ m, bucket (markHelperFailed c f t p) f t m
      = filterBucket p (bucket c f t m) := by
    intro m
    unfold bucket
    rw [cacheFind_markHelperFailed, if_pos ⟨rfl, rfl⟩]
    cases cacheFind c f t m with
    | none => rfl
    | some b => rfl
  refine ⟨hpair, ?_, ?_⟩
  · intro m e he
    rw [hpair m] at he
    unfold filterBucket at he
    have := (List.mem_filter.mp he).2
    simpa using this
  · intro f' t' m hne
    rw [cacheFind_markHelperFailed, if_neg hne]

/-- C2 witness: the failed helper is filtered out of the `(md, pdf)` buckets
while the `(md, html)` lookup is untouched. -/
theorem markHelperFailed_pair_isolated_witness :
    cacheFind (markHelperFailed wCache "md" "pdf" "a") "md" "html" ConversionMode.normal
      = cacheFind wCache "md" "html" ConversionMode.normal ∧
    bucket (markHelperFailed wCache "md" "pdf" "a") "md" "pdf" ConversionMode.normal
      = filterBucket "a" (bucket wCache "md" "pdf" ConversionMode.normal) :=
  ⟨(markHelperFailed_pair_isolated wCache "md" "pdf" "a").2.2 "md" "html"
      ConversionMode.normal (by decide),
   (markHelperFailed_pair_isolated wCache "md" "pdf" "a").1 ConversionMode.normal⟩

/-- C3: after `LoadAndPing` has marked every ping-failed helper globally
failed, a helper whose ping failed appears in no (from, to, mode) candidate
bucket of the cache used for conversions. -/
theorem pingFailed_helper_absent_everywhere :
    ∀ (failed : List String) (c : HelperCache) (p : String), p ∈ failed →
      ∀ (f t : Format) (m : ConversionMode) (e : CacheEntry),
        e ∈ bucket (applyPingExclusions c failed) f t m → e.helper ≠ p := by
  intro failed
  induction failed with
  | nil => intro c p hp; cases hp
  | cons q qs ih =>
    intro c p hp f t m e he
    have hstep : applyPingExclusions c (q :: qs)
        = applyPingExclusions (markHelperGloballyFailed c q) qs := rfl
    rw [hstep] at he
    rcases List.mem_cons.mp hp with rfl | hq
    · exact (mem_bucket_markHelperGloballyFailed (mem_bucket_applyPingExclusions he)).2
    · exact ih (markHelperGloballyFailed c q) p hq f t m e he

/-- C3 witness: with helper `a` ping-failed, the surviving entry of the
`(md, pdf, normal)` bucket is not `a`. -/
theorem pingFailed_helper_absent_everywhere_witness :
    (⟨"b", 1⟩ : CacheEntry) ∈
        bucket (applyPingExclusions wCache ["a"]) "md" "pdf" ConversionMode.normal ∧
      ("b" : String) ≠ "a" :=
  ⟨by decide,
   pingFailed_helper_absent_everywhere ["a"] wCache "a" (by decide) "md" "pdf"
     ConversionMode.normal ⟨"b", 1⟩ (by decide)⟩

/-- Lookup in an association list built by pairing each key of a key list
with a value function: a successful lookup returns the value at the looked
up key. -/
theorem lookup_map_keyed {κ ν : Type} [BEq κ] [LawfulBEq κ] (v : κ → ν) :
    ∀ (keys : List κ) (k : κ) (b : ν),
      (keys.map (fun x => (x, v x))).lookup k = some b → b = v k := by
  intro keys
  induction keys with
  | nil => intro k b h; cases h
  | cons x xs ih =>
    intro k b h
    simp only [List.map_cons, List.lookup] at h
    cases hk : k == x with
    | true =>
      rw [hk] at h
      injection h with h
      rw [← h, eq_of_beq hk]
    | false =>
      rw [hk] at h
      exact ih k b h

/-- A successful mode-level lookup in a generated cache returns exactly the
generated bucket of that key. -/
theorem cacheFind_generateCache {r : Registry} {f t : Format} {m : ConversionMode}
    {hs : List CacheEntry} (h : cacheFind (generateCache r) f t m = some hs) :
    hs = genBucket r f t m := by
  unfold cacheFind at h
  cases h1 : (generateCache r).lookup f with
  | none => rw [h1] at h; cases h
  | some tos =>
    rw [h1] at h
    have htos : tos = genTos r f := by
      unfold generateCache at h1
      exact lookup_map_keyed (genTos r) _ f tos h1
    subst htos
    dsimp only at h
    cases h2 : (genTos r f).lookup t with
    | none => rw [h2] at h; cases h
    | some ms =>
      rw [h2] at h
      have hms : ms = genModes r f t := by
        unfold genTos at h2
        exact lookup_map_keyed (genModes r f) _ t ms h2
      subst hms
      unfold genModes at h
      exact lookup_map_keyed (genBucket r f t) _ m hs h

/-- The candidate loop of `Convert` returns the first stored candidate whose
run succeeds, or, after exhausting the list, the wrapped conversion-failed
error built from the total count and the error of the last candidate. -/
theorem convertLoop_spec (execErr : String → Option String) (f t : Format) (total : Nat) :
    ∀ (l : List CacheEntry) (c : HelperCache) (le : Option String),
      (convertLoop execErr f t total c l le).2 =
        match l.find? (fun e => (execErr e.helper).isNone) with
        | some e => ConvResult.ok e.helper
        | none =>
          ConvResult.err .conversionFailed
            ("conversion failed: all " ++ toString total ++ " helpers failed, last error: "
              ++ ((match l.getLast? with
                   | some e => execErr e.helper
                   | none => le).getD "")) := by
  intro l
  induction l with
  | nil => intro c le; rfl
  | cons e rest ih =>
    intro c le
    simp only [convertLoop]
    cases hx : execErr e.helper with
    | none =>
      have hfind : (e :: rest).find? (fun e => (execErr e.helper).isNone) = some e := by
        rw [List.find?_cons_of_pos]
        rw [hx]; rfl
      rw [hfind]
    | some msg =>
      have hfind : (e :: rest).find? (fun x => (execErr x.helper).isNone)
          = rest.find? (fun x => (execErr x.helper).isNone) := by
        rw [List.find?_cons_of_neg]
        rw [hx]; simp
      rw [hfind, ih (markHelperFailed c f t e.helper) (some msg)]
      cases rest with
      | nil => simp [hx]
      | cons e2 rest2 => rfl

/-- With an existing input and a non-empty candidate list, `Convert` runs
the candidate loop over exactly the looked-up list. -/
theorem convert_eq_loop (execErr : String → Option String) (input : String)
    (c : HelperCache) (f t : Format) (q : String)
    (hne : findHelpers c f t (modeOfQuality q) ≠ []) :
    convert execErr true input c f t q =
      convertLoop execErr f t (findHelpers c f t (modeOfQuality q)).length c
        (findHelpers c f t (modeOfQuality q)) none := by
  have h1 : (findHelpers c f t (modeOfQuality q)).isEmpty = false := by
    cases hl : findHelpers c f t (modeOfQuality q) with
    | nil => exact absurd hl hne
    | cons a as => rfl
  unfold convert
  simp only [Bool.not_true, Bool.false_eq_true, if_false, h1]

/-- C1: every (fromFormat, toFormat, mode) bucket of a generated cache is
sorted by weight descending with ties broken by helper identifier
ascending, and `HelperConverter.Convert` attempts the stored candidates in
exactly this order, returning on the first success (and failing with the
wrapped conversion error only after the whole list has been attempted). -/
theorem generateCache_sorted_and_convert_in_order :
    (∀ (r : Registry) (f t : Format) (m : ConversionMode) (hs : List CacheEntry),
      cacheFind (generateCache r) f t m = some hs → List.Sorted cacheLE hs) ∧
    (∀ (execErr : String → Option String) (input : String) (c : HelperCache)
        (f t : Format) (q : String),
      findHelpers c f t (modeOfQuality q) ≠ [] →
      (convert execErr true input c f t q).2 =
        match (findHelpers c f t (modeOfQuality q)).find?
            (fun e => (execErr e.helper).isNone) with
        | some e => ConvResult.ok e.helper
        | none =>
          ConvResult.err .conversionFailed
            ("conversion failed: all "
              ++ toString (findHelpers c f t (modeOfQuality q)).length
              ++ " helpers failed, last error: "
              ++ (((findHelpers c f t (modeOfQuality q)).getLast?.bind
                    (fun e => execErr e.helper)).getD ""))) := by
  constructor
  · intro r f t m hs h
    rw [cacheFind_generateCache h]
    exact List.sorted_insertionSort cacheLE _
  · intro execErr input c f t q hne
    rw [convert_eq_loop execErr input c f t q hne, convertLoop_spec]
    cases hfind : (findHelpers c f t (modeOfQuality q)).find?
        (fun e => (execErr e.helper).isNone) with
    | some e => rfl
    | none =>
      cases hlast : (findHelpers c f t (modeOfQuality q)).getLast? with
      | none =>
        exact absurd (List.getLast?_eq_none_iff.mp hlast) hne
      | some e => rfl

/-- A sample registry used to instantiate the generated-cache theorems. -/
def wReg : Registry :=
  [("b", ⟨⟨"b", 1, true⟩, some ⟨"B", [("md", [("pdf", ⟨⟨1, 1⟩, ⟨0, 0⟩, ⟨0, 0⟩⟩)])]⟩⟩),
   ("a", ⟨⟨"a", 1, true⟩, some ⟨"A", [("md", [("pdf", ⟨⟨1, 1⟩, ⟨0, 0⟩, ⟨0, 0⟩⟩)])]⟩⟩)]

/-- A sample execution oracle: helper `a` fails, everything else succeeds. -/
def wExec : String → Option String := fun h => if h = "a" then some "boom" else none

/-- C1 witness: the generated `(md, pdf, normal)` bucket of the sample
registry is sorted, and with its first candidate failing, `Convert` returns
the second. -/
theorem generateCache_sorted_and_convert_in_order_witness :
    List.Sorted cacheLE [⟨"a", (1 : ℚ)⟩, ⟨"b", 1⟩] ∧
    (convert wExec true "in.md" wCache "md" "pdf" "").2 = ConvResult.ok "b" :=
  ⟨generateCache_sorted_and_convert_in_order.1 wReg "md" "pdf" ConversionMode.normal
      [⟨"a", 1⟩, ⟨"b", 1⟩] (by decide),
   (generateCache_sorted_and_convert_in_order.2 wExec "in.md" wCache "md" "pdf" ""
      (by decide)).trans (by decide)⟩

/-- C4: when the requested mode's bucket is empty and the mode is not
normal, `FindHelpers` returns the (from, to, normal) bucket; in particular,
with a non-empty normal bucket and an empty fast bucket, a fast request
attempts the normal-mode candidates instead of returning
UnsupportedConversion, and `Convert` reports UnsupportedConversion only
when the normal bucket is empty too. -/
theorem findHelpers_falls_back_to_normal :
    (∀ (c : HelperCache) (f t : Format) (m : ConversionMode),
      bucket c f t m = [] → m ≠ .normal → findHelpers c f t m = bucket c f t .normal) ∧
    (∀ (execErr : String → Option String) (input : String) (c : HelperCache)
        (f t : Format),
      bucket c f t .fast = [] → bucket c f t .normal ≠ [] →
        findHelpers c f t (modeOfQuality "fast") = bucket c f t .normal ∧
        (convert execErr true input c f t "fast").2 =
          match (bucket c f t .normal).find? (fun e => (execErr e.helper).isNone) with
          | some e => ConvResult.ok e.helper
          | none =>
            ConvResult.err .conversionFailed
              ("conversion failed: all " ++ toString (bucket c f t .normal).length
                ++ " helpers failed, last error: "
                ++ (((bucket c f t .normal).getLast?.bind
                      (fun e => execErr e.helper)).getD ""))) ∧
    (∀ (execErr : String → Option String) (input : String) (c : HelperCache)
        (f t : Format) (msg : String),
      (convert execErr true input c f t "fast").2 = .err .unsupportedConversion msg →
      bucket c f t .fast = [] ∧ bucket c f t .normal = []) := by
  have hfb : ∀ (c : HelperCache) (f t : Format) (m : ConversionMode),
      bucket c f t m = [] → m ≠ .normal → findHelpers c f t m = bucket c f t .normal := by
    intro c f t m hemp hm
    unfold findHelpers
    rw [hemp]
    simp only [List.isEmpty_nil, Bool.not_true, Bool.false_eq_true, if_false]
    rw [if_pos hm]
  have hmode : modeOfQuality "fast" = ConversionMode.fast := rfl
  refine ⟨hfb, ?_, ?_⟩
  · intro execErr input c f t hfast hnorm
    have heq : findHelpers c f t (modeOfQuality "fast") = bucket c f t .normal := by
      rw [hmode]; exact hfb c f t .fast hfast (by decide)
    have hne : findHelpers c f t (modeOfQuality "fast") ≠ [] := by
      rw [heq]; exact hnorm
    refine ⟨heq, ?_⟩
    rw [convert_eq_loop execErr input c f t "fast" hne, convertLoop_spec, heq]
    cases hfind : (bucket c f t .normal).find? (fun e => (execErr e.helper).isNone) with
    | some e => rfl
    | none =>
      cases hlast : (bucket c f t .normal).getLast? with
      | none => exact absurd (List.getLast?_eq_none_iff.mp hlast) hnorm
      | some e => rfl
  · intro execErr input c f t msg h
    by_cases hne : findHelpers c f t (modeOfQuality "fast") = []
    · have hfast : bucket c f t .fast = [] := by
        by_contra hb
        have : findHelpers c f t (modeOfQuality "fast") = bucket c f t .fast := by
          unfold findHelpers
          rw [hmode]
          rw [if_pos (by
            cases hl : bucket c f t ConversionMode.fast with
            | nil => exact absurd hl hb
            | cons a as => rfl)]
        exact hb (this ▸ hne)
      refine ⟨hfast, ?_⟩
      have := hfb c f t .fast hfast (by decide)
      rw [hmode] at hne
      rw [this] at hne
      exact hne
    · exfalso
      rw [convert_eq_loop execErr input c f t "fast" hne, convertLoop_spec] at h
      cases hfind : (findHelpers c f t (modeOfQuality "fast")).find?
          (fun e => (execErr e.helper).isNone) with
      | some e => rw [hfind] at h; cases h
      | none => rw [hfind] at h; cases h

/-- C4 witness: in the sample cache the `(md, html)` pair has only a normal
bucket; a fast request falls back to it and succeeds with its candidate. -/
theorem findHelpers_falls_back_to_normal_witness :
    findHelpers wCache "md" "html" (modeOfQuality "fast")
        = bucket wCache "md" "html" ConversionMode.normal ∧
    (convert (fun _ => none) true "in.md" wCache "md" "html" "fast").2
        = ConvResult.ok "a" :=
  ⟨(findHelpers_falls_back_to_normal.2.1 (fun _ => none) "in.md" wCache "md" "html"
      (by decide) (by decide)).1,
   ((findHelpers_falls_back_to_normal.2.1 (fun _ => none) "in.md" wCache "md" "html"
      (by decide) (by decide)).2).trans (by decide)⟩

/-- A single-candidate cache exhausted by a failing helper. -/
def cxCache : HelperCache := [("md", [("pdf", [(.normal, [⟨"h1", 1⟩])])])]

/-- C7 counterexample: when every candidate for (md, pdf) fails, the error
`Convert` returns wraps ErrConversionFailed and carries the last underlying
error, but its message contains neither format of the pair — the claim that
the returned ConversionFailure references the pair is false (the pair
appears only in the log output, lines 141–146). -/
theorem convert_exhaustion_error_omits_pair :
    (convert (fun _ => some "boom") true "in.md" cxCache "md" "pdf" "").2
        = ConvResult.err .conversionFailed
            "conversion failed: all 1 helpers failed, last error: boom" ∧
      ¬(("md" : String).data <:+:
          ("conversion failed: all 1 helpers failed, last error: boom" : String).data) ∧
      ¬(("pdf" : String).data <:+:
          ("conversion failed: all 1 helpers failed, last error: boom" : String).data) := by
  decide

/-- C7 (amended): if every candidate helper for a pair fails,
`HelperConverter.Convert` returns an error wrapping ErrConversionFailed
whose message reports the number of candidates tried and carries the last
candidate's underlying error. (The message does not name the pair, and the
code performs no cleanup of the output path, so nothing is guaranteed about
a partially written output file.) -/
theorem convert_exhaustion_reports_count_and_last_error
    (execErr : String → Option String) (input : String) (c : HelperCache)
    (f t : Format) (q : String)
    (hne : findHelpers c f t (modeOfQuality q) ≠ [])
    (hall : ∀ e ∈ findHelpers c f t (modeOfQuality q), execErr e.helper ≠ none) :
    (convert execErr true input c f t q).2 =
      ConvResult.err .conversionFailed
        ("conversion failed: all " ++ toString (findHelpers c f t (modeOfQuality q)).length
          ++ " helpers failed, last error: "
          ++ (((findHelpers c f t (modeOfQuality q)).getLast?.bind
                (fun e => execErr e.helper)).getD "")) := by
  rw [convert_eq_loop execErr input c f t q hne, convertLoop_spec]
  have hfind : (findHelpers c f t (modeOfQuality q)).find?
      (fun e => (execErr e.helper).isNone) = none := by
    rw [List.find?_eq_none]
    intro e he
    have := hall e he
    simp only [Option.isNone_iff_eq_none]
    exact this
  rw [hfind]
  cases hlast : (findHelpers c f t (modeOfQuality q)).getLast? with
  | none => exact absurd (List.getLast?_eq_none_iff.mp hlast) hne
  | some e => rfl

/-- C7 witness: a two-candidate bucket where both candidates fail yields the
wrapped error with the count and the second candidate's error message. -/
theorem convert_exhaustion_reports_count_witness :
    (convert (fun h => some (h ++ " broke")) true "in.md" wCache "md" "pdf" "").2
      = ConvResult.err .conversionFailed
          "conversion failed: all 2 helpers failed, last error: b broke" :=
  (convert_exhaustion_reports_count_and_last_error (fun h => some (h ++ " broke"))
    "in.md" wCache "md" "pdf" "" (by decide) (by decide)).trans (by decide)

/-- The post-parse validation of `Executor.GetInfo` (executor.go, lines
99–105): the only check performed on a successfully parsed descriptor is
that the outer capabilities map is non-empty (`len(info.Capabilities) ==
0`). -/
def getInfoValidation (info : HelperInfo) : Bool :=
  !info.capabilities.isEmpty

/-- A descriptor whose only (from, to) entry supports fast but not normal
mode. -/
def infoNoNormal : HelperInfo :=
  ⟨"h", [("md", [("pdf", ⟨⟨0, 0⟩, ⟨1, 1⟩, ⟨0, 0⟩⟩)])]⟩

/-- A registry holding only that descriptor. -/
def regNoNormal : Registry := [("h", ⟨⟨"h", 1, true⟩, some infoNoNormal⟩)]

/-- C8 counterexample: `GetInfo` accepts a descriptor whose (md, pdf) entry
has no supported normal mode (its validation only counts the outer map),
that pair still contributes an entry to the generated (md, pdf, fast)
bucket, and a descriptor with a from-entry holding zero format pairs is
accepted as well. -/
theorem getInfo_accepts_missing_normal :
    getInfoValidation infoNoNormal = true ∧
    (⟨⟨0, 0⟩, ⟨1, 1⟩, ⟨0, 0⟩⟩ : ModesStruct).normal.isSupported = false ∧
    genBucket regNoNormal "md" "pdf" ConversionMode.fast = [⟨"h", 1⟩] ∧
    getInfoValidation ⟨"x", [("md", [])]⟩ = true := by
  decide

/-- C8 (amended): `GetInfo` rejects exactly the descriptors whose parsed
capabilities contain zero fromFormat entries; it performs no per-pair
normal-mode validation, and a (from, to) pair whose normal mode is
unsupported still contributes cache entries for each of its supported
modes: membership in a generated bucket is determined only by the
availability of the helper and the support of the looked-up mode itself
(via `entryFor`), never by the normal mode. -/
theorem getInfoValidation_iff_and_bucket_membership :
    (∀ info : HelperInfo, getInfoValidation info = false ↔ info.capabilities = []) ∧
    (∀ (r : Registry) (f t : Format) (m : ConversionMode) (e : CacheEntry),
      e ∈ genBucket r f t m ↔ ∃ h ∈ r, entryFor f t m h = some e) := by
  constructor
  · intro info
    unfold getInfoValidation
    cases h : info.capabilities with
    | nil => simp
    | cons x xs => simp
  · intro r f t m e
    unfold genBucket
    rw [(List.perm_insertionSort cacheLE (r.filterMap (entryFor f t m))).mem_iff]
    rw [List.mem_filterMap]

theorem sortDedup_perm_eq {l1 l2 : List String} (h : l1.Perm l2) :
    sortDedup l1 = sortDedup l2 := by
  unfold sortDedup
  refine List.eq_of_perm_of_sorted ?_ (List.sorted_insertionSort strLE _)
    (List.sorted_insertionSort strLE _)
  exact ((List.perm_insertionSort strLE l1.dedup).trans h.dedup).trans
    (List.perm_insertionSort strLE l2.dedup).symm

theorem genBucket_perm {r1 r2 : Registry} (h : r1.Perm r2) (f t : Format)
    (m : ConversionMode) : genBucket r1 f t m = genBucket r2 f t m := by
  unfold genBucket
  refine List.eq_of_perm_of_sorted ?_ (List.sorted_insertionSort cacheLE _)
    (List.sorted_insertionSort cacheLE _)
  exact ((List.perm_insertionSort cacheLE _).trans (h.filterMap (entryFor f t m))).trans
    (List.perm_insertionSort cacheLE _).symm

/-- C9: `GenerateCache` followed by serialization is a deterministic
function of the registry contents: two registry states holding the same
helpers (any map iteration order, modelled as permuted association lists)
produce identical serialized caches, byte for byte. -/
theorem generateCache_deterministic {r1 r2 : Registry} (h : r1.Perm r2) :
    generateCache r1 = generateCache r2 := by
  have hbucket : genBucket r1 = genBucket r2 :=
    funext fun f => funext fun t => funext fun m => genBucket_perm h f t m
  have hmodes : genModes r1 = genModes r2 := by
    funext f t
    unfold genModes
    rw [hbucket]
  have htos : genTos r1 = genTos r2 := by
    funext f
    unfold genTos
    rw [hmodes, sortDedup_perm_eq (h.flatMap_right (tosOf · f))]
  unfold generateCache
  rw [htos, sortDedup_perm_eq (h.flatMap_right fromsOf)]

/-- C9 witness: the sample registry read in two different iteration orders
generates identical serialized caches. -/
theorem generateCache_deterministic_witness :
    generateCache wReg = generateCache wReg.reverse :=
  generateCache_deterministic (by decide)

theorem connects_append :
    ∀ (p : List Step) (a b c : Format), connects a p b = true →
      connects a (p ++ [⟨b, c⟩]) c = true := by
  intro p
  induction p with
  | nil =>
    intro a b c h
    simp only [connects] at h
    simp only [List.nil_append, connects]
    rw [eq_of_beq h]
    simp
  | cons s rest ih =>
    intro a b c h
    simp only [connects, Bool.and_eq_true] at h
    simp only [List.cons_append, connects, Bool.and_eq_true]
    exact ⟨h.1, ih s.toFormat b c h.2⟩

theorem connects_head {a b : Format} {s : Step} {rest : List Step}
    (h : connects a (s :: rest) b = true) : s.fromFormat = a := by
  simp only [connects, Bool.and_eq_true] at h
  exact eq_of_beq h.1

theorem connects_last :
    ∀ (p : List Step) (a b : Format), connects a p b = true →
      ∀ s, p.getLast? = some s → s.toFormat = b := by
  intro p
  induction p with
  | nil => intro a b _ s hs; cases hs
  | cons x rest ih =>
    intro a b h s hs
    simp only [connects, Bool.and_eq_true] at h
    cases rest with
    | nil =>
      simp only [List.getLast?_singleton, Option.some.injEq] at hs
      subst hs
      simp only [connects] at h
      exact eq_of_beq h.2
    | cons y rr =>
      rw [List.getLast?_cons_cons] at hs
      exact ih x.toFormat b h.2 s hs

theorem connects_consecutive :
    ∀ (pre : List Step) (a : Format) (p : List Step) (b : Format)
      (s1 s2 : Step) (post : List Step),
      connects a p b = true → p = pre ++ s1 :: s2 :: post →
      s1.toFormat = s2.fromFormat := by
  intro pre
  induction pre with
  | nil =>
    intro a p b s1 s2 post h hp
    subst hp
    simp only [List.nil_append, connects, Bool.and_eq_true] at h
    exact (eq_of_beq h.2.1).symm
  | cons x pre' ih =>
    intro a p b s1 s2 post h hp
    subst hp
    simp only [List.cons_append, connects, Bool.and_eq_true] at h
    exact ih x.toFormat _ b s1 s2 post h.2 rfl

/-- Soundness of the BFS queue loop: from a queue of well-formed partial
chains, any returned pipeline is a non-empty chain from `f` to `tgt` of at
most `maxSteps` hops, with pairwise distinct step targets all of whose
non-final targets are preferred intermediates. -/
theorem bfsLoop_sound (can : Format → Format → Bool) (tgt : Format)
    (inters : List Format) (maxSteps : Nat) (f : Format) :
    ∀ (queue : List Node) (visited : List Format),
      (∀ n ∈ queue, connects f n.path n.fmt = true ∧ n.path.length = n.dist ∧
        (n.path.map Step.toFormat).Nodup ∧
        (∀ x ∈ n.path.map Step.toFormat, x ∈ visited ∧ x ∈ inters)) →
      ∀ p, bfsLoop can tgt (tgt :: inters) maxSteps queue visited = some p →
        connects f p tgt = true ∧ p ≠ [] ∧ (p.map Step.toFormat).Nodup ∧
        (∀ x ∈ p.dropLast.map Step.toFormat, x ∈ inters) ∧
        p.length ≤ maxSteps := by
  intro queue visited
  induction queue, visited using bfsLoop.induct can tgt (tgt :: inters) maxSteps with
  | case1 visited =>
    intro _ p hp
    rw [bfsLoop] at hp
    cases hp
  | case2 cur rest visited hskip ih =>
    intro hinv p hp
    rw [bfsLoop, if_pos hskip] at hp
    exact ih (fun n hn => hinv n (List.mem_cons_of_mem _ hn)) p hp
  | case3 cur rest visited hguard p0 ns0 v0 hexp =>
    intro hinv p hp
    rw [bfsLoop, if_neg hguard] at hp
    rw [hexp] at hp
    simp only [Option.some.injEq] at hp
    subst hp
    obtain ⟨hcur1, hcur2, hcur3, hcur4⟩ := hinv cur (List.mem_cons_self _ _)
    obtain ⟨_, _, _, hsome⟩ :=
      expandCandidates_spec can tgt cur (tgt :: inters) visited hexp
    obtain ⟨hpeq, htgtvis, hcantgt⟩ := hsome p0 rfl
    subst hpeq
    refine ⟨connects_append cur.path f cur.fmt tgt hcur1, by simp, ?_, ?_, ?_⟩
    · rw [List.map_append]
      simp only [List.map_cons, List.map_nil]
      rw [List.nodup_append]
      refine ⟨hcur3, List.nodup_singleton _, ?_⟩
      intro x hx hx'
      simp only [List.mem_singleton] at hx'
      subst hx'
      exact htgtvis (hcur4 x hx).1
    · rw [List.dropLast_concat]
      intro x hx
      exact (hcur4 x hx).2
    · rw [List.length_append, List.length_cons, List.length_nil, hcur2]
      omega
  | case4 cur rest visited hguard ns v hexp ih =>
    intro hinv p hp
    rw [bfsLoop, if_neg hguard] at hp
    rw [hexp] at hp
    obtain ⟨hveq, hns, _, _⟩ :=
      expandCandidates_spec can tgt cur (tgt :: inters) visited hexp
    obtain ⟨hcur1, hcur2, hcur3, hcur4⟩ := hinv cur (List.mem_cons_self _ _)
    refine ih ?_ p hp
    intro n hn
    rcases List.mem_append.mp hn with hn | hn
    · obtain ⟨h1, h2, h3, h4⟩ := hinv n (List.mem_cons_of_mem _ hn)
      refine ⟨h1, h2, h3, ?_⟩
      intro x hx
      obtain ⟨hxv, hxi⟩ := h4 x hx
      exact ⟨by rw [hveq]; exact List.mem_append_left _ hxv, hxi⟩
    · obtain ⟨hf1, hf2, hf3, hf4, hf5, hf6⟩ := hns n hn
      refine ⟨?_, ?_, ?_, ?_⟩
      · rw [hf5]
        exact connects_append cur.path f cur.fmt n.fmt hcur1
      · rw [hf5, hf6, List.length_append, List.length_cons, List.length_nil, hcur2]
      · rw [hf5, List.map_append]
        simp only [List.map_cons, List.map_nil]
        rw [List.nodup_append]
        refine ⟨hcur3, List.nodup_singleton _, ?_⟩
        intro x hx hx'
        simp only [List.mem_singleton] at hx'
        subst hx'
        exact hf2 (hcur4 _ hx).1
      · intro x hx
        rw [hf5, List.map_append] at hx
        simp only [List.map_cons, List.map_nil] at hx
        rcases List.mem_append.mp hx with hx | hx
        · obtain ⟨hxv, hxi⟩ := hcur4 x hx
          exact ⟨by rw [hveq]; exact List.mem_append_left _ hxv, hxi⟩
        · simp only [List.mem_singleton] at hx
          subst hx
          refine ⟨?_, ?_⟩
          · rw [hveq]
            refine List.mem_append_right _ ?_
            exact List.mem_map.mpr ⟨n, hn, rfl⟩
          · rcases List.mem_cons.mp hf1 with h | h
            · exact absurd h hf3
            · exact h

theorem first2Step_eq_find (can : Format → Format → Bool) (f tgt : Format) :
    ∀ l : List Format,
      first2Step can f tgt l =
        (l.find? (fun i => can f i && can i tgt)).map
          (fun i => [⟨f, i⟩, ⟨i, tgt⟩]) := by
  intro l
  induction l with
  | nil => rfl
  | cons i is ih =>
    simp only [first2Step, try2StepPipeline]
    cases hc : can f i && can i tgt with
    | true =>
      rw [List.find?_cons_of_pos (p := fun j => can f j && can j tgt) (a := i) _ hc]
      rfl
    | false =>
      rw [List.find?_cons_of_neg (p := fun j => can f j && can j tgt) (a := i) _
        (by simp only [hc]; exact Bool.false_ne_true)]
      exact ih

/-- The trivial start state of the BFS satisfies the queue invariant. -/
theorem bfsStart_inv (f : Format) (visited : List Format) (inters : List Format) :
    ∀ n ∈ [(⟨f, [], 0⟩ : Node)], connects f n.path n.fmt = true ∧
      n.path.length = n.dist ∧ (n.path.map Step.toFormat).Nodup ∧
      (∀ x ∈ n.path.map Step.toFormat, x ∈ visited ∧ x ∈ inters) := by
  intro n hn
  simp only [List.mem_singleton] at hn
  subst hn
  refine ⟨?_, rfl, List.nodup_nil, ?_⟩
  · simp [connects]
  · intro x hx; cases hx

/-- C5: `buildPipeline` resolves at most 4 hops; whenever a 2-step chain
through some preferred intermediate exists, the chain through the first
such intermediate in the fixed priority order pdf, ps, html is returned —
before any longer chain is considered; and the preference for these
structure-preserving intermediates over any other node holds at every
depth in the strongest form: the search explores only the target and the
shortlist, so no format outside pdf, ps, html ever appears as an
intermediate of a returned pipeline. -/
theorem buildPipeline_capped_and_prefers_2step :
    (∀ (can : Format → Format → Bool) (f tgt : Format) (p : List Step),
      buildPipeline can f tgt = some p → p.length ≤ 4) ∧
    (∀ (can : Format → Format → Bool) (f tgt i : Format),
      intermediateFormats.find? (fun j => can f j && can j tgt) = some i →
      buildPipeline can f tgt = some [⟨f, i⟩, ⟨i, tgt⟩]) ∧
    (∀ (can : Format → Format → Bool) (f tgt : Format) (p : List Step),
      buildPipeline can f tgt = some p →
      ∀ x ∈ p.dropLast.map Step.toFormat, x ∈ intermediateFormats) := by
  refine ⟨?_, ?_, ?_⟩
  · intro can f tgt p h
    unfold buildPipeline at h
    cases h2 : first2Step can f tgt intermediateFormats with
    | some p2 =>
      rw [h2] at h
      injection h with h
      subst h
      rw [first2Step_eq_find] at h2
      obtain ⟨i, _, hp⟩ := Option.map_eq_some'.mp h2
      rw [← hp]
      simp only [List.length_cons, List.length_nil]
      omega
    | none =>
      rw [h2] at h
      dsimp only at h
      unfold tryMultiStepPipeline at h
      exact (bfsLoop_sound can tgt intermediateFormats 4 f _ _
        (bfsStart_inv f [f] intermediateFormats) p h).2.2.2.2
  · intro can f tgt i hfind
    unfold buildPipeline
    rw [first2Step_eq_find, hfind]
    rfl
  · intro can f tgt p h
    unfold buildPipeline at h
    cases h2 : first2Step can f tgt intermediateFormats with
    | some p2 =>
      rw [h2] at h
      injection h with h
      subst h
      rw [first2Step_eq_find] at h2
      obtain ⟨i, hfind, hp⟩ := Option.map_eq_some'.mp h2
      rw [← hp]
      intro x hx
      simp only [List.dropLast, List.map_cons, List.map_nil, List.mem_singleton] at hx
      subst hx
      exact List.mem_of_find?_eq_some hfind
    | none =>
      rw [h2] at h
      dsimp only at h
      unfold tryMultiStepPipeline at h
      exact (bfsLoop_sound can tgt intermediateFormats 4 f _ _
        (bfsStart_inv f [f] intermediateFormats) p h).2.2.2.1

/-- C5 witness: with direct converters md→ps and ps→html (pdf is not
available from md), the fast-path chain through ps is returned and is
within the 4-hop cap. -/
theorem buildPipeline_capped_and_prefers_2step_witness :
    buildPipeline
        (fun a b => (a == "md" && b == "ps") || (a == "ps" && b == "html"))
        "md" "html" = some [⟨"md", "ps"⟩, ⟨"ps", "html"⟩] ∧
      ([(⟨"md", "ps"⟩ : Step), ⟨"ps", "html"⟩]).length ≤ 4 :=
  ⟨buildPipeline_capped_and_prefers_2step.2.1
      (fun a b => (a == "md" && b == "ps") || (a == "ps" && b == "html"))
      "md" "html" "ps" (by decide),
   buildPipeline_capped_and_prefers_2step.1
      (fun a b => (a == "md" && b == "ps") || (a == "ps" && b == "html"))
      "md" "html" [⟨"md", "ps"⟩, ⟨"ps", "html"⟩]
      (buildPipeline_capped_and_prefers_2step.2.1
        (fun a b => (a == "md" && b == "ps") || (a == "ps" && b == "html"))
        "md" "html" "ps" (by decide))⟩

/-- C10: in its call context (no direct converter for the pair), every
pipeline `buildPipeline` returns is a well-formed non-empty chain: its
first step starts at the requested source format, its last step ends at the
requested target format, consecutive steps share their junction format, no
format is the target of two different steps, and every intermediate format
is one of pdf, ps, html. -/
theorem buildPipeline_wellformed (can : Format → Format → Bool) (f tgt : Format)
    (p : List Step) (hdirect : can f tgt = false)
    (h : buildPipeline can f tgt = some p) :
    p ≠ [] ∧
    (∀ s, p.head? = some s → s.fromFormat = f) ∧
    (∀ s, p.getLast? = some s → s.toFormat = tgt) ∧
    (∀ pre s1 s2 post, p = pre ++ s1 :: s2 :: post → s1.toFormat = s2.fromFormat) ∧
    (p.map Step.toFormat).Nodup ∧
    (∀ x ∈ p.dropLast.map Step.toFormat, x ∈ intermediateFormats) := by
  suffices h' : connects f p tgt = true ∧ p ≠ [] ∧ (p.map Step.toFormat).Nodup ∧
      (∀ x ∈ p.dropLast.map Step.toFormat, x ∈ intermediateFormats) by
    obtain ⟨hc, hne, hnd, hin⟩ := h'
    refine ⟨hne, ?_, ?_, ?_, hnd, hin⟩
    · intro s hs
      cases p with
      | nil => cases hs
      | cons s0 rest =>
        simp only [List.head?_cons, Option.some.injEq] at hs
        subst hs
        exact connects_head hc
    · intro s hs
      exact connects_last p f tgt hc s hs
    · intro pre s1 s2 post hp
      exact connects_consecutive pre f p tgt s1 s2 post hc hp
  unfold buildPipeline at h
  cases h2 : first2Step can f tgt intermediateFormats with
  | some p2 =>
    rw [h2] at h
    injection h with h
    subst h
    rw [first2Step_eq_find] at h2
    obtain ⟨i, hfind, hp⟩ := Option.map_eq_some'.mp h2
    subst hp
    have hmem := List.mem_of_find?_eq_some hfind
    have hpred := List.find?_some hfind
    rw [Bool.and_eq_true] at hpred
    have hine : i ≠ tgt := by
      intro he
      rw [he] at hpred
      rw [hpred.1] at hdirect
      cases hdirect
    refine ⟨?_, by simp, ?_, ?_⟩
    · simp [connects]
    · simp only [List.map_cons, List.map_nil]
      simp [hine]
    · intro x hx
      simp only [List.dropLast, List.map_cons, List.map_nil, List.mem_singleton] at hx
      subst hx
      exact hmem
  | none =>
    rw [h2] at h
    dsimp only at h
    unfold tryMultiStepPipeline at h
    obtain ⟨hc, hne, hnd, hin, _⟩ := bfsLoop_sound can tgt intermediateFormats 4 f _ _
      (bfsStart_inv f [f] intermediateFormats) p h
    exact ⟨hc, hne, hnd, hin⟩

/-- C10 witness: with converters md→ps and ps→html but no direct md→html,
the returned chain is non-empty (instantiating the well-formedness theorem
with both hypotheses discharged on this concrete edge set). -/
theorem buildPipeline_wellformed_witness :
    buildPipeline
        (fun a b => (a == "md" && b == "ps") || (a == "ps" && b == "html"))
        "md" "html" = some [⟨"md", "ps"⟩, ⟨"ps", "html"⟩] ∧
      [⟨"md", "ps"⟩, (⟨"ps", "html"⟩ : Step)] ≠ [] :=
  ⟨by decide,
   (buildPipeline_wellformed
      (fun a b => (a == "md" && b == "ps") || (a == "ps" && b == "html"))
      "md" "html" [⟨"md", "ps"⟩, ⟨"ps", "html"⟩]
      (by decide) (by decide)).1⟩

theorem output_not_mem_temps {output : FileId} (hout : output.isTemp = false) (n : Nat) :
    output ∉ (List.range n).map FileId.temp := by
  intro h
  obtain ⟨k, _, hk⟩ := List.mem_map.mp h
  rw [← hk] at hout
  cases hout

/-- Invariant-carrying specification of the pipeline hop loop: no temporary
file survives into the final file set, a successful run created exactly one
temp file per non-final hop and wrote the output, and a failing run reports
the 1-based index and formats of the first failing hop. -/
theorem executePipeline_spec (exec : Nat → Bool) (output : FileId) (fs₀ : List FileId)
    (h₀ : ∀ x ∈ fs₀, x.isTemp = false) (hout : output.isTemp = false) :
    ∀ (p : List Step) (i : Nat) (cur : FileId) (temps fs : List FileId),
      temps = (List.range i).map FileId.temp →
      (∀ x ∈ fs, x ∈ fs₀ ∨ x ∈ temps) →
      (∀ x ∈ (executePipeline exec output p i cur temps fs).2.2, x ∈ fs₀ ∨ x = output) ∧
      ((executePipeline exec output p i cur temps fs).1 = .ok → p ≠ [] →
        output ∈ (executePipeline exec output p i cur temps fs).2.2 ∧
        (executePipeline exec output p i cur temps fs).2.1
          = (List.range (i + (p.length - 1))).map FileId.temp) ∧
      (∀ idx ff tt,
        (executePipeline exec output p i cur temps fs).1 = .stepFailed idx ff tt →
        ∃ j, j < p.length ∧ idx = i + j + 1 ∧
          (∃ s, p[j]? = some s ∧ s.fromFormat = ff ∧ s.toFormat = tt) ∧
          exec (i + j) = false ∧ ∀ k, k < j → exec (i + k) = true) := by
  intro p
  induction p with
  | nil =>
    intro i cur temps fs htemps hfs
    refine ⟨?_, ?_, ?_⟩
    · intro x hx
      simp only [executePipeline, List.mem_filter] at hx
      obtain ⟨hx1, hx2⟩ := hx
      have hx2' : x ∉ temps := by simpa using hx2
      rcases hfs x hx1 with h | h
      · exact Or.inl h
      · exact absurd h hx2'
    · intro _ hne; exact absurd rfl hne
    · intro idx ff tt h
      simp only [executePipeline] at h
      cases h
  | cons step rest ih =>
    intro i cur temps fs htemps hfs
    cases rest with
    | nil =>
      cases hex : exec i with
      | true =>
        have hrun : executePipeline exec output [step] i cur temps fs
            = (.ok, temps, (output :: fs).filter (fun x => !temps.contains x)) := by
          simp only [executePipeline, hex, if_true]
        rw [hrun]
        refine ⟨?_, ?_, ?_⟩
        · intro x hx
          simp only [List.mem_filter, List.mem_cons] at hx
          obtain ⟨hx1, hx2⟩ := hx
          have hx2' : x ∉ temps := by simpa using hx2
          rcases hx1 with rfl | hx1
          · exact Or.inr rfl
          · rcases hfs x hx1 with h | h
            · exact Or.inl h
            · exact absurd h hx2'
        · intro _ _
          constructor
          · rw [List.mem_filter]
            refine ⟨List.mem_cons_self _ _, ?_⟩
            have : output ∉ temps := by
              rw [htemps]; exact output_not_mem_temps hout i
            simpa using this
          · simpa using htemps
        · intro idx ff tt h
          cases h
      | false =>
        have hrun : executePipeline exec output [step] i cur temps fs
            = (.stepFailed (i + 1) step.fromFormat step.toFormat, temps,
                fs.filter (fun x => !temps.contains x)) := by
          simp only [executePipeline, hex, Bool.false_eq_true, if_false]
        rw [hrun]
        refine ⟨?_, ?_, ?_⟩
        · intro x hx
          simp only [List.mem_filter] at hx
          obtain ⟨hx1, hx2⟩ := hx
          have hx2' : x ∉ temps := by simpa using hx2
          rcases hfs x hx1 with h | h
          · exact Or.inl h
          · exact absurd h hx2'
        · intro h; cases h
        · intro idx ff tt h
          injection h with h1 h2 h3
          refine ⟨0, by simp, by omega, ⟨step, by simp, h2, h3⟩, ?_, ?_⟩
          · simpa using hex
          · intro k hk; omega
    | cons s2 r2 =>
      cases hex : exec i with
      | true =>
        have hrun : executePipeline exec output (step :: s2 :: r2) i cur temps fs
            = executePipeline exec output (s2 :: r2) (i + 1) (FileId.temp i)
                (temps ++ [FileId.temp i]) (FileId.temp i :: fs) := by
          simp only [executePipeline, hex, if_true]
        rw [hrun]
        have htemps' : temps ++ [FileId.temp i]
            = (List.range (i + 1)).map FileId.temp := by
          rw [htemps, List.range_succ, List.map_append]
          rfl
        have hfs' : ∀ x ∈ FileId.temp i :: fs,
            x ∈ fs₀ ∨ x ∈ temps ++ [FileId.temp i] := by
          intro x hx
          rcases List.mem_cons.mp hx with rfl | hx
          · exact Or.inr (List.mem_append_right _ (List.mem_singleton_self _))
          · rcases hfs x hx with h | h
            · exact Or.inl h
            · exact Or.inr (List.mem_append_left _ h)
        obtain ⟨ha, hb, hc⟩ := ih (i + 1) (FileId.temp i) (temps ++ [FileId.temp i])
          (FileId.temp i :: fs) htemps' hfs'
        refine ⟨ha, ?_, ?_⟩
        · intro hok _
          obtain ⟨h1, h2⟩ := hb hok (by simp)
          refine ⟨h1, ?_⟩
          rw [h2]
          have harith : i + 1 + ((s2 :: r2).length - 1)
              = i + ((step :: s2 :: r2).length - 1) := by
            simp only [List.length_cons]
            omega
          rw [harith]
        · intro idx ff tt h
          obtain ⟨j, hj1, hj2, ⟨s, hs1, hs2, hs3⟩, hj4, hj5⟩ := hc idx ff tt h
          have harith : idx = i + (j + 1) + 1 := by omega
          have hlt : j + 1 < (step :: s2 :: r2).length := by
            simp only [List.length_cons] at hj1 ⊢
            omega
          have hget : (step :: s2 :: r2)[j + 1]? = some s := by
            simpa using hs1
          have hex' : exec (i + (j + 1)) = false := by
            have : i + (j + 1) = i + 1 + j := by omega
            rw [this]
            exact hj4
          refine ⟨j + 1, hlt, harith, ⟨s, hget, hs2, hs3⟩, hex', ?_⟩
          intro k hk
          cases k with
          | zero => simpa using hex
          | succ k' =>
            have : i + (k' + 1) = i + 1 + k' := by omega
            rw [this]
            exact hj5 k' (by omega)
      | false =>
        have hrun : executePipeline exec output (step :: s2 :: r2) i cur temps fs
            = (.stepFailed (i + 1) step.fromFormat step.toFormat,
                temps ++ [FileId.temp i],
                (FileId.temp i :: fs).filter
                  (fun x => !(temps ++ [FileId.temp i]).contains x)) := by
          simp only [executePipeline, hex, Bool.false_eq_true, if_false]
        rw [hrun]
        refine ⟨?_, ?_, ?_⟩
        · intro x hx
          simp only [List.mem_filter, List.mem_cons] at hx
          obtain ⟨hx1, hx2⟩ := hx
          have hx2' : x ∉ temps ++ [FileId.temp i] := by simpa using hx2
          rcases hx1 with rfl | hx1
          · exact absurd (List.mem_append_right _ (List.mem_singleton_self _)) hx2'
          · rcases hfs x hx1 with h | h
            · exact Or.inl h
            · exact absurd (List.mem_append_left _ h) hx2'
        · intro h; cases h
        · intro idx ff tt h
          injection h with h1 h2 h3
          refine ⟨0, by simp, by omega, ⟨step, by simp, h2, h3⟩, ?_, ?_⟩
          · simpa using hex
          · intro k hk; omega

/-- C6: run from a temp-free file system, every non-final hop writes to a
freshly created temporary file (one per hop, pairwise distinct, absent from
the initial file system) and the final hop writes the caller's requested
output; if a hop fails, the returned error names that hop (1-based index
and its formats) and no temporary file survives in the file system; on
overall success every temporary file is deleted and the output file is
present. -/
theorem executePipeline_temp_hygiene (exec : Nat → Bool) (output input : FileId)
    (fs₀ : List FileId) (p : List Step)
    (h₀ : ∀ x ∈ fs₀, x.isTemp = false) (hout : output.isTemp = false) (hne : p ≠ []) :
    (∀ x ∈ (executePipeline exec output p 0 input [] fs₀).2.2, x.isTemp = false) ∧
    ((executePipeline exec output p 0 input [] fs₀).1 = .ok →
      output ∈ (executePipeline exec output p 0 input [] fs₀).2.2 ∧
      (executePipeline exec output p 0 input [] fs₀).2.1
        = (List.range (p.length - 1)).map FileId.temp ∧
      (executePipeline exec output p 0 input [] fs₀).2.1.Nodup ∧
      ∀ x ∈ (executePipeline exec output p 0 input [] fs₀).2.1, x ∉ fs₀) ∧
    (∀ idx ff tt,
      (executePipeline exec output p 0 input [] fs₀).1 = .stepFailed idx ff tt →
      ∃ j, j < p.length ∧ idx = j + 1 ∧
        (∃ s, p[j]? = some s ∧ s.fromFormat = ff ∧ s.toFormat = tt) ∧
        exec j = false ∧ ∀ k, k < j → exec k = true) := by
  obtain ⟨ha, hb, hc⟩ := executePipeline_spec exec output fs₀ h₀ hout p 0 input [] fs₀
    (by simp) (fun x hx => Or.inl hx)
  refine ⟨?_, ?_, ?_⟩
  · intro x hx
    rcases ha x hx with h | h
    · exact h₀ x h
    · rw [h]; exact hout
  · intro hok
    obtain ⟨h1, h2⟩ := hb hok hne
    simp only [Nat.zero_add] at h2
    refine ⟨h1, h2, ?_, ?_⟩
    · rw [h2]
      exact List.Nodup.map (fun a b hab => by injection hab)
        (List.nodup_range (p.length - 1))
    · intro x hx
      rw [h2] at hx
      obtain ⟨k, _, hk⟩ := List.mem_map.mp hx
      intro hmem
      have := h₀ x hmem
      rw [← hk] at this
      cases this
  · intro idx ff tt h
    obtain ⟨j, hj1, hj2, hj3, hj4, hj5⟩ := hc idx ff tt h
    simp only [Nat.zero_add] at hj2 hj4
    refine ⟨j, hj1, hj2, hj3, hj4, ?_⟩
    intro k hk
    have := hj5 k hk
    simpa using this

/-- C6 witness: a three-hop pipeline whose second hop fails reports hop 2
with its formats, and no temp file survives. -/
theorem executePipeline_temp_hygiene_witness :
    (∀ x ∈ (executePipeline (fun i => i == 0) (.user "out")
        [⟨"a", "b"⟩, ⟨"b", "c"⟩, ⟨"c", "d"⟩] 0 (.user "in") [] [.user "in"]).2.2,
      x.isTemp = false) ∧
    (executePipeline (fun i => i == 0) (.user "out")
        [⟨"a", "b"⟩, ⟨"b", "c"⟩, ⟨"c", "d"⟩] 0 (.user "in") [] [.user "in"]).1
      = PipeResult.stepFailed 2 "b" "c" :=
  ⟨(executePipeline_temp_hygiene (fun i => i == 0) (.user "out") (.user "in")
      [.user "in"] [⟨"a", "b"⟩, ⟨"b", "c"⟩, ⟨"c", "d"⟩]
      (by decide) (by decide) (by decide)).1,
   by decide⟩

end Yakateka
